import Mathlib

/-!
Verification of the fritz log history engine.

The development shallowly embeds three parts of the repository:

* `FritzDb` — the persisted log store and incremental merge of
  `src/db/connection.rs` (`Connection::new_entries`, `Connection::append_logs`,
  `Connection::append_logs_impl`, `Connection::latest_logs`, and the unique
  index created by `Connection::create_logs_table`).  The sqlite table is
  modelled as a list of rows in insertion order (`id` ascending); the
  `INSERT` honours the `logs_unique_index` on `(logged_at, message_id)` by
  failing when a row with the same pair is already present.  Rust panics
  (`assert!`, `Option::unwrap`) are modelled as an explicit `panicked`
  outcome; `anyhow` errors from sqlx as `dbError`.
* `FritzApp` — the canonical log record, the raw-entry normalizer
  (`TryFrom<api::Log> for Log` in `fritz-app/src/fritz/mod.rs`), and the
  spec-modelled merge engine (the `Database::append_new_logs` implementation
  is not part of the repository's files; only its tests and callers are, so
  the merge engine is modelled from the specification, section 4.2).
* `Login` / `FritzApi` — the challenge parsers of `src/login/challenge.rs`
  and `fritz-api/src/api/challenge.rs`.

Timestamps of the `chrono` crate are embedded as civil datetimes
(`NaiveDT`): the `and_local_timezone(Local).single()` step is modelled as
the identity (timezone-database gaps and ambiguities are outside the
embedding); `DateTime<Local>` comparison is the lexicographic comparison of
the civil fields, which agrees with the instant order for the unambiguous
local times `single()` accepts.
-/

namespace FritzDb

/-- One row of the `logs` table, equally one `LogEntry` of
`src/logs/log_entry.rs` as far as `Connection` reads it: `time` is the unix
timestamp (`entry.time.timestamp()` / the `logged_at` column), `msgId` the
device message id, `category` the category stored with the row, `rawMsg`
the raw message text. -/
structure LogEntry where
  time : Int
  msgId : Int
  category : Int
  rawMsg : String
  deriving DecidableEq

/-- The sortedness check of `append_logs`:
`entries.windows(2).all(|e| e[0].time <= e[1].time)`. -/
def is_sorted : List LogEntry → Bool
  | [] => true
  | [_] => true
  | a :: b :: t => decide (a.time ≤ b.time) && is_sorted (b :: t)

/-- Comparison used throughout `Connection`: order of rows by `time`. -/
def timeLe (a b : LogEntry) : Prop := a.time ≤ b.time

instance : DecidableRel timeLe := fun a b => Int.decLe a.time b.time

instance : IsTrans LogEntry timeLe := ⟨fun _ _ _ => Int.le_trans⟩

/-- The `logs_unique_index` of `create_logs_table`: inserting a row whose
`(logged_at, message_id)` pair is already present makes the `INSERT` fail. -/
def violatesUniqueIndex (store : List LogEntry) (e : LogEntry) : Bool :=
  store.any fun r => r.time == e.time && r.msgId == e.msgId

/-- `Connection::append_logs_impl`: one `INSERT` per entry, in order, no
transaction.  The first failing insert stops the loop; rows inserted before
it stay committed.  Returns the table contents and whether every insert
succeeded. -/
def append_logs_impl : List LogEntry → List LogEntry → List LogEntry × Bool
  | store, [] => (store, true)
  | store, e :: es =>
    if violatesUniqueIndex store e then (store, false)
    else append_logs_impl (store ++ [e]) es

/-- `Connection::latest_logs`: `SELECT ... ORDER BY id DESC LIMIT ?1` —
the rows in reverse insertion order, truncated. -/
def latest_logs (store : List LogEntry) (limit : Nat) : List LogEntry :=
  store.reverse.take limit

/-- Descending search `(eq_begin..eq_end).rev().find(p)`:
`searchDown p lo n` probes `lo + n - 1, …, lo` and returns the first index
satisfying `p`. -/
def searchDown (p : Nat → Bool) (lo : Nat) : Nat → Option Nat
  | 0 => none
  | n + 1 => if p (lo + n) then some (lo + n) else searchDown p lo n

/-- `Connection::new_entries`.  `none` models the `unwrap` panic on
`first()` / `last()` of an empty slice.  `partition_point` on a slice that
is partitioned by the predicate — guaranteed here by the sortedness assert
of `append_logs` — equals the length of the maximal satisfying prefix, so
it is embedded as `takeWhile` length. -/
def new_entries (latest : LogEntry) (entries : List LogEntry) :
    Option (List LogEntry) :=
  match entries.head?, entries.getLast? with
  | some first, some last =>
    if latest.time < first.time then some entries
    else if last.time < latest.time then some []
    else
      let eqBegin := (entries.takeWhile fun log => decide (log.time < latest.time)).length
      let eqEnd := (entries.takeWhile fun log => decide (log.time ≤ latest.time)).length
      if eqBegin = eqEnd then some (entries.drop eqBegin)
      else
        match searchDown
            (fun i => match entries[i]? with
              | some e => e.msgId == latest.msgId
              | none => false)
            eqBegin (eqEnd - eqBegin) with
        | some index =>
          if index = entries.length - 1 then some []
          else some (entries.drop (index + 1))
        | none => some (entries.drop eqBegin)
  | _, _ => none

/-- Outcome of one `append_logs` call.  `panicked` carries the table as it
was (the panic happens before any insert); `dbError` the table after the
partial inserts that committed before the failing one; `ok` the table and
the returned `new_entries.len()`. -/
inductive AppendResult where
  | panicked (store : List LogEntry)
  | dbError (store : List LogEntry)
  | ok (store : List LogEntry) (inserted : Nat)
  deriving DecidableEq

/-- Run `append_logs_impl` and package its outcome as `append_logs` does. -/
def commitResult (store : List LogEntry) (newOnes : List LogEntry) : AppendResult :=
  match append_logs_impl store newOnes with
  | (store', true) => .ok store' newOnes.length
  | (store', false) => .dbError store'

/-- `Connection::append_logs`: assert the batch sorted (a violation is an
`assert!` panic, not an error return), read the latest row by insertion
order, cut the batch with `new_entries`, insert the cut. -/
def append_logs (store : List LogEntry) (entries : List LogEntry) : AppendResult :=
  if is_sorted entries then
    match latest_logs store 1 with
    | [] => commitResult store entries
    | latest :: _ =>
      match new_entries latest entries with
      | none => .panicked store
      | some ns => commitResult store ns
  else .panicked store

/-- Table contents after an `append_logs` call, whatever its outcome. -/
def resultStore : AppendResult → List LogEntry
  | .panicked s => s
  | .dbError s => s
  | .ok s _ => s

/-- Whether the call returned through the `anyhow::Result` error channel
(the only error return `append_logs` has is a failing insert). -/
def isErrorReturn : AppendResult → Bool
  | .dbError _ => true
  | _ => false

/-- Whether the call panicked. -/
def isPanic : AppendResult → Bool
  | .panicked _ => true
  | _ => false

/-- One merge step of the polling loop: the table after `append_logs`. -/
def stepStore (store batch : List LogEntry) : List LogEntry :=
  resultStore (append_logs store batch)

/-- A sequence of merge calls starting from an empty table. -/
def mergeSeq (batches : List (List LogEntry)) : List LogEntry :=
  batches.foldl stepStore []

/-- Identity key of a stored row in the sense of the specification: the
rows of this variant carry no repetition, so the earliest timestamp is the
row's own `time` and the key is `(time, message_id, category)`. -/
def identityKey (e : LogEntry) : Int × Int × Int := (e.time, e.msgId, e.category)

/-- Number of rows of the table carrying a given identity key. -/
def countKey (store : List LogEntry) (k : Int × Int × Int) : Nat :=
  store.countP fun e => decide (identityKey e = k)

end FritzDb

namespace FritzDb

theorem is_sorted_iff : ∀ l : List LogEntry, is_sorted l = true ↔ List.Chain' timeLe l
  | [] => by simp [is_sorted]
  | [a] => by simp [is_sorted]
  | a :: b :: t => by
    rw [is_sorted, List.chain'_cons, Bool.and_eq_true, decide_eq_true_iff,
      is_sorted_iff (b :: t)]
    exact Iff.rfl

theorem sorted_pairwise {l : List LogEntry} (h : is_sorted l = true) :
    List.Pairwise timeLe l :=
  List.chain'_iff_pairwise.mp ((is_sorted_iff l).mp h)

theorem sorted_tail {a : LogEntry} {t : List LogEntry}
    (h : is_sorted (a :: t) = true) : is_sorted t = true :=
  (is_sorted_iff t).mpr ((is_sorted_iff (a :: t)).mp h).tail

theorem head_le_of_sorted {a : LogEntry} {t : List LogEntry}
    (h : is_sorted (a :: t) = true) : ∀ x ∈ a :: t, a.time ≤ x.time := by
  intro x hx
  rcases List.mem_cons.mp hx with rfl | hx
  · exact le_refl _
  · exact (List.pairwise_cons.mp (sorted_pairwise h)).1 x hx

theorem le_last_of_sorted {l : List LogEntry} {last : LogEntry}
    (h : is_sorted l = true) (hl : l.getLast? = some last) :
    ∀ x ∈ l, x.time ≤ last.time := by
  intro x hx
  have hne : l ≠ [] := by rintro rfl; simp at hl
  have hp := sorted_pairwise h
  rw [List.getLast?_eq_getLast _ hne] at hl
  have hlast := Option.some.inj hl
  rcases (List.mem_iff_getElem).mp hx with ⟨i, hi, rfl⟩
  have hlen : l.length - 1 < l.length := by
    cases l with
    | nil => exact absurd rfl hne
    | cons a t => simp
  rcases Nat.lt_or_ge i (l.length - 1) with hlt | hge
  · have := (List.pairwise_iff_getElem.mp hp) i (l.length - 1) hi hlen hlt
    rw [← List.getLast_eq_getElem, hlast] at this
    exact this
  · have : i = l.length - 1 := Nat.le_antisymm (by omega) hge
    subst this
    rw [← List.getLast_eq_getElem, hlast]

theorem dropWhile_ge (T : Int) {l : List LogEntry} (h : is_sorted l = true) :
    ∀ x ∈ l.dropWhile (fun e => decide (e.time < T)), T ≤ x.time := by
  induction l with
  | nil => simp
  | cons a t ih =>
    intro x hx
    rw [List.dropWhile_cons] at hx
    by_cases ha : a.time < T
    · simp only [ha, decide_True] at hx
      exact ih (sorted_tail h) x hx
    · simp only [ha, decide_False] at hx
      have hax := head_le_of_sorted h x hx
      omega

theorem drop_takeWhile_length (p : LogEntry → Bool) (l : List LogEntry) :
    l.drop (l.takeWhile p).length = l.dropWhile p := by
  rw [← List.drop_left (l.takeWhile p) (l.dropWhile p), List.takeWhile_append_dropWhile]

end FritzDb

namespace FritzDb

theorem append_logs_impl_take :
    ∀ (es : List LogEntry) (store : List LogEntry),
      ∃ j, j ≤ es.length ∧ (append_logs_impl store es).1 = store ++ es.take j
  | [], store => ⟨0, by simp [append_logs_impl]⟩
  | e :: es, store => by
    rw [append_logs_impl]
    by_cases hv : violatesUniqueIndex store e = true
    · exact ⟨0, by simp [hv]⟩
    · rcases append_logs_impl_take es (store ++ [e]) with ⟨j, hj, hstore⟩
      refine ⟨j + 1, by simpa using hj, ?_⟩
      simp only [hv]
      simp only [Bool.false_eq_true, if_false]
      rw [hstore, List.take_succ_cons, List.append_assoc]
      rfl

theorem append_logs_impl_ok :
    ∀ (es : List LogEntry) (store : List LogEntry),
      (append_logs_impl store es).2 = true → (append_logs_impl store es).1 = store ++ es
  | [], store => by simp [append_logs_impl]
  | e :: es, store => by
    rw [append_logs_impl]
    by_cases hv : violatesUniqueIndex store e = true
    · simp [hv]
    · intro h
      simp only [hv, Bool.false_eq_true, if_false] at h ⊢
      rw [append_logs_impl_ok es (store ++ [e]) h, List.append_assoc]
      rfl

theorem searchDown_none (p : Nat → Bool) (lo : Nat) :
    ∀ n, (∀ i, lo ≤ i → i < lo + n → p i = false) → searchDown p lo n = none
  | 0, _ => rfl
  | n + 1, h => by
    rw [searchDown, h (lo + n) (by omega) (by omega)]
    simp only [Bool.false_eq_true, if_false]
    exact searchDown_none p lo n fun i h1 h2 => h i h1 (by omega)

theorem searchDown_top (p : Nat → Bool) (lo n : Nat) (h : p (lo + n) = true) :
    searchDown p lo (n + 1) = some (lo + n) := by
  rw [searchDown, h]
  simp

theorem latest_logs_one (store : List LogEntry) :
    latest_logs store 1 =
      match store.getLast? with
      | some l => [l]
      | none => [] := by
  rw [latest_logs, ← List.head?_reverse]
  cases store.reverse with
  | nil => rfl
  | cons a t => simp

end FritzDb

namespace FritzDb

theorem searchDown_bounds (p : Nat → Bool) (lo : Nat) :
    ∀ n i, searchDown p lo n = some i → lo ≤ i ∧ i < lo + n
  | 0, i => by simp [searchDown]
  | n + 1, i => by
    rw [searchDown]
    by_cases h : p (lo + n) = true
    · rw [h]
      simp only [if_true]
      rintro h'
      cases Option.some.inj h'
      omega
    · rw [Bool.not_eq_true] at h
      rw [h]
      simp only [Bool.false_eq_true, if_false]
      intro h'
      have := searchDown_bounds p lo n i h'
      omega

theorem takeWhile_length_mono {p q : LogEntry → Bool} (h : ∀ x, p x = true → q x = true) :
    ∀ l : List LogEntry, (l.takeWhile p).length ≤ (l.takeWhile q).length
  | [] => le_refl _
  | a :: t => by
    rw [List.takeWhile_cons, List.takeWhile_cons]
    by_cases hp : p a = true
    · rw [hp, h a hp]
      simpa using takeWhile_length_mono h t
    · rw [Bool.not_eq_true] at hp
      rw [hp]
      simp

theorem new_entries_eq_drop (latest : LogEntry) {B : List LogEntry}
    (hs : is_sorted B = true) (hne : B ≠ []) :
    ∃ k, new_entries latest B = some (B.drop k) ∧
      ∀ x ∈ B.drop k, latest.time ≤ x.time := by
  cases B with
  | nil => exact absurd rfl hne
  | cons f t =>
  have hlast := List.getLast?_eq_getLast (f :: t) (by simp)
  set l := (f :: t).getLast (by simp) with hl
  simp only [new_entries, List.head?_cons, hlast]
  by_cases h1 : latest.time < f.time
  · refine ⟨0, by simp [h1], ?_⟩
    intro x hx
    rw [List.drop_zero] at hx
    have := head_le_of_sorted hs x hx
    omega
  · rw [if_neg h1]
    by_cases h2 : l.time < latest.time
    · exact ⟨(f :: t).length, by simp [h2], by simp⟩
    · rw [if_neg h2]
      have hdropge : ∀ x ∈ (f :: t).drop
          ((f :: t).takeWhile fun log => decide (log.time < latest.time)).length,
          latest.time ≤ x.time := by
        rw [drop_takeWhile_length]
        exact dropWhile_ge latest.time hs
      by_cases heq :
          ((f :: t).takeWhile fun log => decide (log.time < latest.time)).length =
          ((f :: t).takeWhile fun log => decide (log.time ≤ latest.time)).length
      · exact ⟨_, by rw [if_pos heq], hdropge⟩
      · rw [if_neg heq]
        cases hfind : searchDown
            (fun i => match (f :: t)[i]? with
              | some e => e.msgId == latest.msgId
              | none => false)
            ((f :: t).takeWhile fun log => decide (log.time < latest.time)).length
            (((f :: t).takeWhile fun log => decide (log.time ≤ latest.time)).length -
              ((f :: t).takeWhile fun log => decide (log.time < latest.time)).length) with
        | none => exact ⟨_, rfl, hdropge⟩
        | some index =>
          have hbounds := searchDown_bounds _ _ _ _ hfind
          by_cases hX : index = (f :: t).length - 1
          · exact ⟨(f :: t).length, by simp [hX], by simp⟩
          · refine ⟨index + 1, by simp only [if_neg hX], ?_⟩
            intro x hx
            apply hdropge
            have hk : index + 1 =
                ((f :: t).takeWhile fun log => decide (log.time < latest.time)).length +
                  (index + 1 -
                    ((f :: t).takeWhile fun log => decide (log.time < latest.time)).length) := by
              omega
            rw [hk, ← List.drop_drop] at hx
            exact List.mem_of_mem_drop hx

end FritzDb

namespace FritzDb

theorem new_entries_empty_batch (latest : LogEntry) : new_entries latest [] = none := rfl

theorem new_entries_last_self {B : List LogEntry} {l : LogEntry}
    (hs : is_sorted B = true) (hl : B.getLast? = some l) :
    new_entries l B = some [] := by
  cases B with
  | nil => simp at hl
  | cons f t =>
  have hle := le_last_of_sorted hs hl
  simp only [new_entries, List.head?_cons, hl]
  have h1 : ¬ l.time < f.time := not_lt.mpr (hle f (by simp))
  rw [if_neg h1, if_neg (lt_irrefl l.time)]
  have hEnd : ((f :: t).takeWhile fun log => decide (log.time ≤ l.time)).length =
      (f :: t).length := by
    rw [List.takeWhile_eq_self_iff.mpr (by intro x hx; simpa using hle x hx)]
  by_cases heq : ((f :: t).takeWhile fun log => decide (log.time < l.time)).length =
      ((f :: t).takeWhile fun log => decide (log.time ≤ l.time)).length
  · rw [if_pos heq, heq, hEnd]
    simp
  · rw [if_neg heq]
    have hmono : ((f :: t).takeWhile fun log => decide (log.time < l.time)).length ≤
        ((f :: t).takeWhile fun log => decide (log.time ≤ l.time)).length := by
      refine takeWhile_length_mono ?_ (f :: t)
      intro x hx
      simp only [decide_eq_true_iff] at hx ⊢
      omega
    have hlt : ((f :: t).takeWhile fun log => decide (log.time < l.time)).length <
        (f :: t).length := by
      rw [← hEnd]
      omega
    have harith : ((f :: t).takeWhile fun log => decide (log.time ≤ l.time)).length -
        ((f :: t).takeWhile fun log => decide (log.time < l.time)).length =
        ((f :: t).length - 1 -
          ((f :: t).takeWhile fun log => decide (log.time < l.time)).length) + 1 := by
      rw [hEnd]
      omega
    rw [harith, searchDown_top]
    · have hidx : ((f :: t).takeWhile fun log => decide (log.time < l.time)).length +
          ((f :: t).length - 1 -
            ((f :: t).takeWhile fun log => decide (log.time < l.time)).length) =
          (f :: t).length - 1 := by
        omega
      rw [hidx]
      simp
    · have hidx : ((f :: t).takeWhile fun log => decide (log.time < l.time)).length +
          ((f :: t).length - 1 -
            ((f :: t).takeWhile fun log => decide (log.time < l.time)).length) =
          (f :: t).length - 1 := by
        omega
      rw [hidx]
      have : (f :: t)[(f :: t).length - 1]? = some l := by
        rw [← List.getLast?_eq_getElem?, hl]
      rw [this]
      simp

end FritzDb

namespace FritzDb

theorem isPanic_commitResult (store es : List LogEntry) :
    isPanic (commitResult store es) = false := by
  rw [commitResult]
  rcases happ : append_logs_impl store es with ⟨st, b⟩
  cases b <;> simp [isPanic]

theorem commitResult_nil (store : List LogEntry) :
    commitResult store [] = .ok store 0 := rfl

theorem commitResult_ok {store es S' : List LogEntry} {n : Nat}
    (h : commitResult store es = .ok S' n) : S' = store ++ es ∧ n = es.length := by
  rw [commitResult] at h
  rcases happ : append_logs_impl store es with ⟨st, b⟩
  rw [happ] at h
  cases b
  · simp at h
  · have hst := append_logs_impl_ok es store
    rw [happ] at hst
    simp only at hst
    cases h
    exact ⟨(hst trivial), rfl⟩

/-- C10: with a non-empty, time-ordered batch the `first()`/`last()` unwraps
inside `Connection::new_entries` succeed and `append_logs` cannot panic;
with an empty batch and a non-empty store the `first().unwrap()` is reached
and `append_logs` panics (it does not return an error). -/
theorem append_logs_totality (S B : List LogEntry) :
    (B ≠ [] → is_sorted B = true → isPanic (append_logs S B) = false)
    ∧ (S ≠ [] → append_logs S [] = .panicked S) := by
  constructor
  · intro hne hs
    rw [append_logs, hs]
    simp only [if_true]
    rw [latest_logs_one]
    cases hlast : S.getLast? with
    | none => exact isPanic_commitResult S B
    | some latest =>
      rcases new_entries_eq_drop latest hs hne with ⟨k, hk, -⟩
      simp only [hk]
      exact isPanic_commitResult S (B.drop k)
  · intro hS
    rw [append_logs]
    simp only [is_sorted, if_true]
    rw [latest_logs_one]
    cases hlast : S.getLast? with
    | none =>
      cases S with
      | nil => exact absurd rfl hS
      | cons a t => rw [List.getLast?_eq_getLast _ (by simp)] at hlast; simp at hlast
    | some latest => rfl

/-- C6 (amended): a batch that is not sorted non-decreasing by timestamp
makes `append_logs` fail its `assert!` — a panic raised before any store
access, not an error return — and the store is left unchanged. -/
theorem unsorted_batch_panics (S B : List LogEntry) (h : is_sorted B = false) :
    append_logs S B = .panicked S ∧ isErrorReturn (append_logs S B) = false := by
  rw [append_logs, h]
  simp [isErrorReturn]

theorem latest_logs_one_some {S : List LogEntry} {l : LogEntry}
    (h : S.getLast? = some l) : latest_logs S 1 = [l] := by
  rw [latest_logs_one, h]

theorem latest_logs_one_none {S : List LogEntry}
    (h : S.getLast? = none) : latest_logs S 1 = [] := by
  rw [latest_logs_one, h]

theorem getLast?_eq_none_forces_nil {S : List LogEntry} (h : S.getLast? = none) :
    S = [] := by
  cases S with
  | nil => rfl
  | cons a t => rw [List.getLast?_eq_getLast _ (by simp)] at h; simp at h

theorem append_logs_sorted_none {S B : List LogEntry}
    (hs : is_sorted B = true) (hlatest : S.getLast? = none) :
    append_logs S B = commitResult S B := by
  rw [append_logs, hs]
  simp only [if_true]
  rw [latest_logs_one_none hlatest]

theorem append_logs_sorted_some {S B : List LogEntry} {latest : LogEntry}
    (hs : is_sorted B = true) (hlatest : S.getLast? = some latest) :
    append_logs S B =
      match new_entries latest B with
      | none => .panicked S
      | some ns => commitResult S ns := by
  rw [append_logs, hs]
  simp only [if_true]
  rw [latest_logs_one_some hlatest]

/-- C3: merging a non-empty sorted batch that was already merged (the first
call returned `ok`) a second time performs no mutation: the second call
returns the store unchanged with zero rows inserted. -/
theorem append_logs_idempotent (S B S' : List LogEntry) (n : Nat)
    (hne : B ≠ []) (hs : is_sorted B = true)
    (h : append_logs S B = .ok S' n) :
    append_logs S' B = .ok S' 0 := by
  have hlastB : ∃ l, B.getLast? = some l := by
    cases B with
    | nil => exact absurd rfl hne
    | cons a t => exact ⟨_, List.getLast?_eq_getLast _ (by simp)⟩
  rcases hlastB with ⟨lB, hlB⟩
  have second : ∀ T : List LogEntry, T.getLast? = some lB → append_logs T B = .ok T 0 := by
    intro T hT
    rw [append_logs_sorted_some hs hT, new_entries_last_self hs hlB]
    exact commitResult_nil T
  cases hlastS : S.getLast? with
  | none =>
    rw [append_logs_sorted_none hs hlastS] at h
    rcases commitResult_ok h with ⟨rfl, rfl⟩
    cases getLast?_eq_none_forces_nil hlastS
    exact second _ (by simpa using hlB)
  | some latest =>
    rw [append_logs_sorted_some hs hlastS] at h
    rcases new_entries_eq_drop latest hs hne with ⟨k, hk, -⟩
    rw [hk] at h
    simp only at h
    rcases commitResult_ok h with ⟨rfl, rfl⟩
    by_cases hnil : B.drop k = []
    · rw [hnil, List.append_nil]
      rw [append_logs_sorted_some hs hlastS, hk, hnil]
      exact commitResult_nil S
    · have hlast' : (S ++ B.drop k).getLast? = some lB := by
        rw [List.getLast?_append_of_ne_nil _ hnil]
        conv_rhs => rw [← hlB]
        conv_rhs => rw [← List.take_append_drop k B]
        rw [List.getLast?_append_of_ne_nil _ hnil]
      exact second _ hlast'

end FritzDb

namespace FritzDb

/-- Invariant behind the `logs_unique_index`: no two rows of the table
share `(logged_at, message_id)`. -/
def uniqueTimeMsg (S : List LogEntry) : Prop :=
  List.Pairwise (fun a b => ¬ (a.time = b.time ∧ a.msgId = b.msgId)) S

theorem violates_false_forall {S : List LogEntry} {e : LogEntry}
    (h : violatesUniqueIndex S e = false) :
    ∀ r ∈ S, ¬ (r.time = e.time ∧ r.msgId = e.msgId) := by
  intro r hr hcontra
  have : violatesUniqueIndex S e = true := by
    rw [violatesUniqueIndex, List.any_eq_true]
    exact ⟨r, hr, by simp [hcontra.1, hcontra.2]⟩
  rw [h] at this
  exact Bool.false_ne_true this

theorem resultStore_commit (store es : List LogEntry) :
    resultStore (commitResult store es) = (append_logs_impl store es).1 := by
  rw [commitResult]
  rcases happ : append_logs_impl store es with ⟨st, b⟩
  cases b <;> simp [resultStore]

theorem impl_preserves_unique :
    ∀ (es S : List LogEntry), uniqueTimeMsg S → uniqueTimeMsg (append_logs_impl S es).1
  | [], S, h => h
  | e :: es, S, h => by
    rw [append_logs_impl]
    by_cases hv : violatesUniqueIndex S e = true
    · rw [hv]
      simpa using h
    · rw [Bool.not_eq_true] at hv
      rw [hv]
      simp only [Bool.false_eq_true, if_false]
      refine impl_preserves_unique es (S ++ [e]) ?_
      rw [uniqueTimeMsg, List.pairwise_append]
      refine ⟨h, List.pairwise_singleton _ _, ?_⟩
      intro a ha b hb
      rw [List.mem_singleton] at hb
      subst hb
      exact violates_false_forall hv a ha

theorem step_preserves_unique (S B : List LogEntry) (h : uniqueTimeMsg S) :
    uniqueTimeMsg (stepStore S B) := by
  rw [stepStore]
  by_cases hs : is_sorted B = true
  · cases hlast : S.getLast? with
    | none =>
      rw [append_logs_sorted_none hs hlast, resultStore_commit]
      exact impl_preserves_unique B S h
    | some latest =>
      rw [append_logs_sorted_some hs hlast]
      cases hnew : new_entries latest B with
      | none => exact h
      | some ns =>
        show uniqueTimeMsg (resultStore (commitResult S ns))
        rw [resultStore_commit]
        exact impl_preserves_unique ns S h
  · rw [Bool.not_eq_true] at hs
    rw [append_logs, hs]
    exact h

theorem foldl_preserves_unique :
    ∀ (bs : List (List LogEntry)) (S : List LogEntry), uniqueTimeMsg S →
      uniqueTimeMsg (bs.foldl stepStore S)
  | [], _, h => h
  | b :: bs, S, h =>
    foldl_preserves_unique bs (stepStore S b) (step_preserves_unique S b h)

theorem countKey_le_one_of_unique :
    ∀ (S : List LogEntry), uniqueTimeMsg S → ∀ k, countKey S k ≤ 1
  | [], _, k => by simp [countKey]
  | a :: t, h, k => by
    have hrel := (List.pairwise_cons.mp h).1
    have ht := (List.pairwise_cons.mp h).2
    rw [countKey, List.countP_cons]
    by_cases ha : identityKey a = k
    · have hzero : (t.countP fun e => decide (identityKey e = k)) = 0 := by
        rw [List.countP_eq_zero]
        intro e he hcontra
        rw [decide_eq_true_iff] at hcontra
        apply hrel e he
        have hae : identityKey e = identityKey a := hcontra.trans ha.symm
        rw [identityKey, identityKey, Prod.mk.injEq, Prod.mk.injEq] at hae
        exact ⟨hae.1.symm, hae.2.1.symm⟩
      rw [hzero, if_pos (by simpa using ha)]
    · rw [if_neg (by simpa using ha)]
      have hle := countKey_le_one_of_unique t ht k
      rw [countKey] at hle
      omega

/-- C4: after any sequence of merges with valid (non-empty, sorted) batches
starting from the empty table, no identity key
`(earliest timestamp, message id, category)` occurs on more than one row:
the unique index on `(logged_at, message_id)` makes every insert that would
duplicate the pair fail, so at most one row per key ever commits. -/
theorem merge_seq_no_duplicate_keys (bs : List (List LogEntry))
    (_hvalid : ∀ b ∈ bs, b ≠ [] ∧ is_sorted b = true) (k : Int × Int × Int) :
    countKey (mergeSeq bs) k ≤ 1 :=
  countKey_le_one_of_unique (mergeSeq bs)
    (foldl_preserves_unique bs [] List.Pairwise.nil) k

end FritzDb

namespace FritzDb

theorem is_sorted_take {l : List LogEntry} (h : is_sorted l = true) (j : Nat) :
    is_sorted (l.take j) = true :=
  (is_sorted_iff _).mpr (((is_sorted_iff l).mp h).take j)

theorem step_preserves_sorted (S B : List LogEntry) (h : is_sorted S = true) :
    is_sorted (stepStore S B) = true := by
  rw [stepStore]
  by_cases hsB : is_sorted B = true
  · cases hlast : S.getLast? with
    | none =>
      cases getLast?_eq_none_forces_nil hlast
      rw [append_logs_sorted_none hsB hlast, resultStore_commit]
      rcases append_logs_impl_take B [] with ⟨j, hj, hstore⟩
      rw [hstore]
      simpa using is_sorted_take hsB j
    | some latest =>
      cases hB : B with
      | nil =>
        subst hB
        rw [append_logs_sorted_some hsB hlast]
        simpa [resultStore] using h
      | cons f t =>
        have hne : B ≠ [] := by rw [hB]; simp
        rw [← hB]
        rcases new_entries_eq_drop latest hsB hne with ⟨k, hk, hge⟩
        rw [append_logs_sorted_some hsB hlast, hk]
        show is_sorted (resultStore (commitResult S (B.drop k))) = true
        rw [resultStore_commit]
        rcases append_logs_impl_take (B.drop k) S with ⟨j, hj, hstore⟩
        rw [hstore]
        rw [is_sorted_iff, List.chain'_append]
        refine ⟨(is_sorted_iff S).mp h, (is_sorted_iff _).mp
          (is_sorted_take ((is_sorted_iff _).mpr (((is_sorted_iff B).mp hsB).drop k)) j), ?_⟩
        intro x hx y hy
        rw [hlast, Option.mem_def, Option.some.injEq] at hx
        subst hx
        have hyB : y ∈ B.drop k := List.mem_of_mem_take (List.mem_of_mem_head? hy)
        exact hge y hyB
  · rw [Bool.not_eq_true] at hsB
    rw [append_logs, hsB]
    exact h

theorem foldl_preserves_sorted :
    ∀ (bs : List (List LogEntry)) (S : List LogEntry), is_sorted S = true →
      is_sorted (bs.foldl stepStore S) = true
  | [], _, h => h
  | b :: bs, S, h =>
    foldl_preserves_sorted bs (stepStore S b) (step_preserves_sorted S b h)

/-- C5: after any sequence of merges with valid batches starting from the
empty table the rows are non-decreasing by timestamp in insertion order,
so reading the store back most-recent-first (`ORDER BY id DESC`) yields a
sequence non-increasing by timestamp. -/
theorem merge_seq_order_preserved (bs : List (List LogEntry))
    (_hvalid : ∀ b ∈ bs, b ≠ [] ∧ is_sorted b = true) :
    is_sorted (mergeSeq bs) = true
    ∧ List.Chain' (fun a b => b.time ≤ a.time)
        (latest_logs (mergeSeq bs) (mergeSeq bs).length) := by
  have hsorted : is_sorted (mergeSeq bs) = true :=
    foldl_preserves_sorted bs [] rfl
  refine ⟨hsorted, ?_⟩
  rw [latest_logs, ← List.length_reverse, List.take_length]
  rw [List.chain'_reverse]
  exact (is_sorted_iff _).mp hsorted

theorem takeWhile_index {q : LogEntry → Bool} :
    ∀ (l : List LogEntry) (i : Nat) (hl : i < l.length),
      i < (l.takeWhile q).length → q l[i] = true
  | a :: t, 0, hl => by
    rw [List.takeWhile_cons]
    cases hq : q a with
    | false => simp
    | true => simp [hq]
  | a :: t, i + 1, hl => by
    rw [List.takeWhile_cons]
    cases hq : q a with
    | false => simp
    | true =>
      rw [if_pos rfl]
      simp only [List.length_cons, Nat.add_lt_add_iff_right]
      intro hlen
      have hi : i < t.length := hlen.trans_le (List.takeWhile_sublist q).length_le
      have hres := takeWhile_index t i hi hlen
      simpa using hres

end FritzDb

namespace FritzDb

theorem lt_takeWhile_of_sorted {T : Int} :
    ∀ (l : List LogEntry), is_sorted l = true → ∀ (i : Nat) (hi : i < l.length),
      l[i].time < T → i < (l.takeWhile fun log => decide (log.time < T)).length
  | a :: t, hs, 0, hi, hsat => by
    rw [List.takeWhile_cons, if_pos (by simpa using hsat)]
    simp
  | a :: t, hs, i + 1, hi, hsat => by
    have hit : i < t.length := by simpa using hi
    have hai : a.time ≤ t[i].time := by
      have := head_le_of_sorted hs t[i] (List.mem_cons_of_mem a (List.getElem_mem hit))
      exact this
    have hsat' : t[i].time < T := by simpa using hsat
    rw [List.takeWhile_cons, if_pos (by simp only [decide_eq_true_iff]; omega)]
    have := lt_takeWhile_of_sorted t (sorted_tail hs) i hit hsat'
    simpa using this

/-- C2 (amended): in the partial-overlap case, when no batch record carries
the latest row's message id at its timestamp, `Connection::new_entries`
does not fail — there is no `OverlapNotFound` error in this code.  It falls
back to the slice starting at `eq_begin` (every record whose timestamp is at
least the latest row's), which is non-empty, and `append_logs` goes on to
insert exactly that slice. -/
theorem overlap_without_msgid_match_appends_tail
    (S B : List LogEntry) (latest : LogEntry)
    (hS : S.getLast? = some latest)
    (hne : B ≠ []) (hs : is_sorted B = true)
    (h1 : ¬ latest.time < (B.head hne).time)
    (h2 : ¬ (B.getLast hne).time < latest.time)
    (hnomatch : ∀ e ∈ B, e.time = latest.time → e.msgId ≠ latest.msgId) :
    new_entries latest B =
      some (B.drop ((B.takeWhile fun log => decide (log.time < latest.time)).length))
    ∧ B.drop ((B.takeWhile fun log => decide (log.time < latest.time)).length) ≠ []
    ∧ append_logs S B =
        commitResult S
          (B.drop ((B.takeWhile fun log => decide (log.time < latest.time)).length)) := by
  have hBE : ((B.takeWhile fun log => decide (log.time < latest.time)).length) ≤
      ((B.takeWhile fun log => decide (log.time ≤ latest.time)).length) := by
    refine takeWhile_length_mono ?_ B
    intro x hx
    simp only [decide_eq_true_iff] at hx ⊢
    omega
  have hEndLen : ((B.takeWhile fun log => decide (log.time ≤ latest.time)).length) ≤
      B.length := (List.takeWhile_sublist _).length_le
  have hBeginLt : ((B.takeWhile fun log => decide (log.time < latest.time)).length) <
      B.length := by
    rcases Nat.lt_or_ge ((B.takeWhile fun log => decide (log.time < latest.time)).length)
      B.length with hlt | hge
    · exact hlt
    · exfalso
      have hlen : ((B.takeWhile fun log => decide (log.time < latest.time)).length) =
          B.length :=
        Nat.le_antisymm (List.takeWhile_sublist _).length_le hge
      have heqB := List.Sublist.eq_of_length (List.takeWhile_sublist _) hlen
      have hall := List.takeWhile_eq_self_iff.mp heqB
      have hlastmem := List.getLast_mem hne
      have := hall _ hlastmem
      rw [decide_eq_true_iff] at this
      omega
  have hfirst : new_entries latest B =
      some (B.drop ((B.takeWhile fun log => decide (log.time < latest.time)).length)) := by
    cases B with
    | nil => exact absurd rfl hne
    | cons f t =>
    have h1' : ¬ latest.time < f.time := h1
    have hlast := List.getLast?_eq_getLast (f :: t) (by simp)
    have h2' : ¬ ((f :: t).getLast (by simp)).time < latest.time := h2
    simp only [new_entries, List.head?_cons, hlast]
    rw [if_neg h1', if_neg h2']
    by_cases heq : (((f :: t).takeWhile fun log => decide (log.time < latest.time)).length) =
        (((f :: t).takeWhile fun log => decide (log.time ≤ latest.time)).length)
    · rw [if_pos heq]
    · rw [if_neg heq]
      have hnone : searchDown
          (fun i => match (f :: t)[i]? with
            | some e => e.msgId == latest.msgId
            | none => false)
          ((f :: t).takeWhile fun log => decide (log.time < latest.time)).length
          (((f :: t).takeWhile fun log => decide (log.time ≤ latest.time)).length -
            ((f :: t).takeWhile fun log => decide (log.time < latest.time)).length) = none := by
        apply searchDown_none
        intro i hge hlt
        have hiEnd : i < ((f :: t).takeWhile fun log => decide (log.time ≤ latest.time)).length := by
          omega
        have hiLen : i < (f :: t).length := Nat.lt_of_lt_of_le hiEnd hEndLen
        have hle : (f :: t)[i].time ≤ latest.time := by
          have := takeWhile_index (f :: t) i hiLen hiEnd
          rw [decide_eq_true_iff] at this
          exact this
        have hgeT : latest.time ≤ (f :: t)[i].time := by
          by_contra hcon
          push_neg at hcon
          have := lt_takeWhile_of_sorted (f :: t) hs i hiLen hcon
          omega
        have htime : (f :: t)[i].time = latest.time := le_antisymm hle hgeT
        have hmsg := hnomatch _ (List.getElem_mem hiLen) htime
        rw [List.getElem?_eq_getElem hiLen]
        simpa using hmsg
      rw [hnone]
  refine ⟨hfirst, ?_, ?_⟩
  · intro hnil
    rw [List.drop_eq_nil_iff] at hnil
    omega
  · rw [append_logs_sorted_some hs hS, hfirst]

end FritzDb

namespace FritzDb

/-- Stored row used by the concrete scenarios. -/
def rowLatest : LogEntry := ⟨1, 1, 1, "stored row"⟩

/-- Batch row sharing `rowLatest`'s timestamp but not its message id. -/
def rowOverlapA : LogEntry := ⟨1, 2, 1, "same second, other id"⟩

/-- Batch row one second newer than `rowLatest`. -/
def rowOverlapB : LogEntry := ⟨2, 2, 1, "one second later"⟩

theorem c2_cex : append_logs [rowLatest] [rowOverlapA, rowOverlapB] =
      .ok [rowLatest, rowOverlapA, rowOverlapB] 2
    ∧ ([rowLatest, rowOverlapA, rowOverlapB] : List LogEntry) ≠ [rowLatest] := by
  decide

theorem c2_wit :
    new_entries rowLatest [rowOverlapA, rowOverlapB] =
      some ([rowOverlapA, rowOverlapB].drop
        (([rowOverlapA, rowOverlapB].takeWhile fun log =>
          decide (log.time < rowLatest.time)).length))
    ∧ [rowOverlapA, rowOverlapB].drop
        (([rowOverlapA, rowOverlapB].takeWhile fun log =>
          decide (log.time < rowLatest.time)).length) ≠ []
    ∧ append_logs [rowLatest] [rowOverlapA, rowOverlapB] =
        commitResult [rowLatest] ([rowOverlapA, rowOverlapB].drop
          (([rowOverlapA, rowOverlapB].takeWhile fun log =>
            decide (log.time < rowLatest.time)).length)) :=
  overlap_without_msgid_match_appends_tail [rowLatest] [rowOverlapA, rowOverlapB]
    rowLatest (by decide) (by decide) (by decide) (by decide) (by decide) (by decide)

theorem c3_wit : append_logs [rowLatest, rowOverlapA, rowOverlapB]
    [rowOverlapA, rowOverlapB] = .ok [rowLatest, rowOverlapA, rowOverlapB] 0 :=
  append_logs_idempotent [rowLatest] [rowOverlapA, rowOverlapB]
    [rowLatest, rowOverlapA, rowOverlapB] 2 (by decide) (by decide) (by decide)

theorem c4_wit : countKey (mergeSeq [[rowOverlapA], [rowOverlapB]]) (1, 2, 1) ≤ 1 :=
  merge_seq_no_duplicate_keys [[rowOverlapA], [rowOverlapB]] (by decide) (1, 2, 1)

theorem c5_wit : is_sorted (mergeSeq [[rowOverlapA], [rowOverlapB]]) = true
    ∧ List.Chain' (fun a b => b.time ≤ a.time)
        (latest_logs (mergeSeq [[rowOverlapA], [rowOverlapB]])
          (mergeSeq [[rowOverlapA], [rowOverlapB]]).length) :=
  merge_seq_order_preserved [[rowOverlapA], [rowOverlapB]] (by decide)

theorem c6_cex : append_logs [rowLatest] [rowOverlapB, rowOverlapA] =
      .panicked [rowLatest]
    ∧ isErrorReturn (append_logs [rowLatest] [rowOverlapB, rowOverlapA]) = false := by
  decide

theorem c6_wit : append_logs [rowLatest] [rowOverlapB, rowOverlapA] =
      .panicked [rowLatest]
    ∧ isErrorReturn (append_logs [rowLatest] [rowOverlapB, rowOverlapA]) = false :=
  unsorted_batch_panics [rowLatest] [rowOverlapB, rowOverlapA] (by decide)

end FritzDb

namespace FritzApp

/-- Civil (timezone-naive) datetime: the embedding of `chrono`'s
`NaiveDateTime` and, through the identity modelling of
`and_local_timezone(Local).single()`, of `DateTime<Local>`. -/
structure NaiveDT where
  year : Nat
  month : Nat
  day : Nat
  hour : Nat
  minute : Nat
  second : Nat
  deriving DecidableEq

/-- Lexicographic key of a datetime; for in-range field values this orders
civil datetimes chronologically, matching `DateTime<Local>` comparison for
the unambiguous times `single()` accepts. -/
def dtKey (d : NaiveDT) : Nat :=
  ((((d.year * 13 + d.month) * 32 + d.day) * 24 + d.hour) * 60 + d.minute) * 61 + d.second

/-- Order on datetimes (`DateTime<Local>: Ord`). -/
def dtLe (a b : NaiveDT) : Prop := dtKey a ≤ dtKey b

/-- Strict order on datetimes. -/
def dtLt (a b : NaiveDT) : Prop := dtKey a < dtKey b

instance (a b : NaiveDT) : Decidable (dtLe a b) := Nat.decLe (dtKey a) (dtKey b)

instance (a b : NaiveDT) : Decidable (dtLt a b) := Nat.decLt (dtKey a) (dtKey b)

/-- Numeric value of an ASCII digit. -/
def digitVal (c : Char) : Nat := c.toNat - 48

/-- Value of a digit string, most significant first. -/
def natOfDigits (ds : List Char) : Nat := ds.foldl (fun a c => a * 10 + digitVal c) 0

/-- Rust's integer `FromStr` after the optional sign was stripped: at least
one digit, digits only, value within the given bound. -/
def parseUnsignedTo (bound : Nat) (ds : List Char) : Option Nat :=
  if ds = [] then none
  else if ds.all Char.isDigit then
    if natOfDigits ds ≤ bound then some (natOfDigits ds) else none
  else none

/-- `<i64 as FromStr>::from_str`: optional `+`/`-` sign, then digits, value
within the `i64` range. -/
def parseI64 (s : String) : Option Int :=
  match s.toList with
  | '+' :: ds => (parseUnsignedTo 9223372036854775807 ds).map fun n => (n : Int)
  | '-' :: ds => (parseUnsignedTo 9223372036854775808 ds).map fun n => -(n : Int)
  | ds => (parseUnsignedTo 9223372036854775807 ds).map fun n => (n : Int)

/-- Value of a digit list as an `i64` (`str::parse::<i64>` on a capture
that the regex guarantees to be digits only). -/
def parseI64Digits (ds : List Char) : Option Int :=
  (parseUnsignedTo 9223372036854775807 ds).map fun n => (n : Int)

/-- Scan of chrono's numeric format items with width 2 (`%d`, `%m`, `%y`,
`%H`, `%M`, `%S`): one or two digits, greedy. -/
def read2 : List Char → Option (Nat × List Char)
  | c1 :: c2 :: rest =>
    if c1.isDigit then
      if c2.isDigit then some (digitVal c1 * 10 + digitVal c2, rest)
      else some (digitVal c1, c2 :: rest)
    else none
  | [c1] => if c1.isDigit then some (digitVal c1, []) else none
  | [] => none

/-- Expect one literal character. -/
def expectChar (c : Char) : List Char → Option (List Char)
  | x :: rest => if x = c then some rest else none
  | [] => none

/-- Gregorian leap year. -/
def isLeapYear (y : Nat) : Bool := y % 4 = 0 && (y % 100 ≠ 0 || y % 400 = 0)

/-- Days of a month. -/
def daysInMonth (y m : Nat) : Nat :=
  if m = 2 then (if isLeapYear y then 29 else 28)
  else if m = 4 ∨ m = 6 ∨ m = 9 ∨ m = 11 then 30
  else 31

/-- `NaiveDate::parse_from_str(s, "%d.%m.%y")`: day and month of one or two
digits, two-digit year (`00–68` ↦ 2000s, `69–99` ↦ 1900s), nothing left
over, and the triple must form a real calendar date. -/
def parseDateDMY (cs : List Char) : Option (Nat × Nat × Nat) := do
  let (d, r1) ← read2 cs
  let r2 ← expectChar '.' r1
  let (m, r3) ← read2 r2
  let r4 ← expectChar '.' r3
  let (y2, r5) ← read2 r4
  if r5 = [] then
    let y := if y2 ≤ 68 then 2000 + y2 else 1900 + y2
    if 1 ≤ m ∧ m ≤ 12 ∧ 1 ≤ d ∧ d ≤ daysInMonth y m then some (y, m, d) else none
  else none

/-- `NaiveTime::parse_from_str(s, "%H:%M:%S")`: hour below 24, minute below
60, second up to 60 (chrono accepts a leap second), nothing left over. -/
def parseTimeHMS (cs : List Char) : Option (Nat × Nat × Nat) := do
  let (h, r1) ← read2 cs
  let r2 ← expectChar ':' r1
  let (mi, r3) ← read2 r2
  let r4 ← expectChar ':' r3
  let (s, r5) ← read2 r4
  if r5 = [] then
    if h ≤ 23 ∧ mi ≤ 59 ∧ s ≤ 60 then some (h, mi, s) else none
  else none

/-- `util::parse_datetime` of `fritz-app/src/fritz/mod.rs`: parse date and
time and view the result as the local civil datetime (the
`and_local_timezone(Local).single()` step is the identity here; a
timezone-database gap would reject the entry, which the embedding does not
model). -/
def parse_datetime (date time : List Char) : Option NaiveDT := do
  let (y, m, d) ← parseDateDMY date
  let (h, mi, s) ← parseTimeHMS time
  some ⟨y, m, d, h, mi, s⟩

end FritzApp

namespace FritzApp

/-- Take the maximal digit run, requiring at least one digit (a `\d+` of the
repetition regex; `\d` is embedded as the ASCII digits — an annotation with
other Unicode digits fails integer parsing in the source and is rejected
there, while the embedding treats it as no annotation). -/
def readDigits1 (cs : List Char) : Option (List Char × List Char) :=
  let ds := cs.takeWhile Char.isDigit
  if ds = [] then none else some (ds, cs.dropWhile Char.isDigit)

/-- Expect a literal character sequence. -/
def stripLit : List Char → List Char → Option (List Char)
  | [], cs => some cs
  | l :: ls, c :: cs => if c = l then stripLit ls cs else none
  | _ :: _, [] => none

/-- Whether a string matches the repetition regex
`" \[(\d+) Meldungen seit (\d+\.\d+\.\d+) (\d+:\d+:\d+)\]$"` in its
entirety, and the three capture groups if so.  All quantified classes are
digit runs followed by a non-digit, so the greedy deterministic scan agrees
with the regex engine. -/
def matchRepetitionSuffix (cs : List Char) : Option (List Char × List Char × List Char) := do
  let r0 ← stripLit [' ', '['] cs
  let (count, r1) ← readDigits1 r0
  let r2 ← stripLit " Meldungen seit ".toList r1
  let (d1, r3) ← readDigits1 r2
  let r4 ← expectChar '.' r3
  let (d2, r5) ← readDigits1 r4
  let r6 ← expectChar '.' r5
  let (d3, r7) ← readDigits1 r6
  let r8 ← expectChar ' ' r7
  let (t1, r9) ← readDigits1 r8
  let r10 ← expectChar ':' r9
  let (t2, r11) ← readDigits1 r10
  let r12 ← expectChar ':' r11
  let (t3, r13) ← readDigits1 r12
  let r14 ← expectChar ']' r13
  if r14 = [] then
    some (count, d1 ++ '.' :: d2 ++ '.' :: d3, t1 ++ ':' :: t2 ++ ':' :: t3)
  else none

/-- Leftmost match of the (end-anchored) repetition regex: the earliest
split of the message into a kept part and a matching annotation. -/
def findRepetitionMatch : List Char → Option (List Char × (List Char × List Char × List Char))
  | [] => none
  | c :: rest =>
    match matchRepetitionSuffix (c :: rest) with
    | some parts => some ([], parts)
    | none => (findRepetitionMatch rest).map fun pr => (c :: pr.1, pr.2)

/-- Whether a message carries the trailing repetition annotation. -/
def hasRepetitionMark (message : String) : Bool :=
  (findRepetitionMatch message.toList).isSome

/-- The `Repetition` struct of `fritz-app/src/fritz/mod.rs`: `datetime` is
the first time the message was logged, `count` how often. -/
structure Repetition where
  datetime : NaiveDT
  count : Int
  deriving DecidableEq

/-- The canonical `Log` of `fritz-app/src/fritz/mod.rs`. -/
structure Log where
  datetime : NaiveDT
  message : String
  messageId : Int
  categoryId : Int
  repetition : Option Repetition
  deriving DecidableEq

/-- `Log::earliest_timestamp_utc`, as a civil datetime: the repetition's
`first seen` time when present, the log's own timestamp otherwise. -/
def earliestDatetime (log : Log) : NaiveDT :=
  match log.repetition with
  | some rep => rep.datetime
  | none => log.datetime

/-- Identity key of a record: `(earliest_timestamp, message_id,
category_id)`. -/
def identityKey (log : Log) : NaiveDT × Int × Int :=
  (earliestDatetime log, log.messageId, log.categoryId)

/-- One raw entry of the device feed (`api::Log`): six opaque strings. -/
structure ApiLog where
  date : String
  time : String
  message : String
  messageId : String
  categoryId : String
  helpLink : String
  deriving DecidableEq

/-- `TryFrom<api::Log> for Log` — the raw-entry normalizer: parse the
date/time, the numeric ids, extract and strip a trailing repetition
annotation if present.  Any failure fails the whole entry (`anyhow`
errors are collapsed into `none`). -/
def logTryFrom (value : ApiLog) : Option Log := do
  let datetime ← parse_datetime value.date.toList value.time.toList
  let messageId ← parseI64 value.messageId
  let categoryId ← parseI64 value.categoryId
  match findRepetitionMatch value.message.toList with
  | none => some ⟨datetime, value.message, messageId, categoryId, none⟩
  | some (kept, count, dateStr, timeStr) => do
    let repDatetime ← parse_datetime dateStr timeStr
    let repCount ← parseI64Digits count
    some ⟨datetime, kept.asString, messageId, categoryId, some ⟨repDatetime, repCount⟩⟩

end FritzApp

namespace FritzApp

/-- C7: the raw entry whose message is
`"X [3 Meldungen seit 01.01.23 01:01:01]"` normalizes to message `"X"`
with repetition `{first seen 2023-01-01 01:01:01 local, count 3}`; and
every accepted entry whose message has no trailing repetition annotation
normalizes with no repetition and the message unchanged. -/
theorem normalizer_repetition_roundtrip :
    logTryFrom ⟨"01.01.23", "01:01:01",
        "X [3 Meldungen seit 01.01.23 01:01:01]", "1", "1", ""⟩ =
      some ⟨⟨2023, 1, 1, 1, 1, 1⟩, "X", 1, 1, some ⟨⟨2023, 1, 1, 1, 1, 1⟩, 3⟩⟩
    ∧ ∀ raw : ApiLog, hasRepetitionMark raw.message = false →
        ∀ log, logTryFrom raw = some log →
          log.repetition = none ∧ log.message = raw.message := by
  refine ⟨by decide, ?_⟩
  intro raw hno log hlog
  have hnone : findRepetitionMatch raw.message.toList = none := by
    rw [hasRepetitionMark] at hno
    cases hfm : findRepetitionMatch raw.message.toList with
    | none => rfl
    | some p => rw [hfm] at hno; simp at hno
  rw [logTryFrom] at hlog
  cases hdt : parse_datetime raw.date.toList raw.time.toList with
  | none => rw [hdt] at hlog; simp at hlog
  | some dt =>
    rw [hdt] at hlog
    cases hmid : parseI64 raw.messageId with
    | none => rw [hmid] at hlog; simp at hlog
    | some mid =>
      rw [hmid] at hlog
      cases hcid : parseI64 raw.categoryId with
      | none => rw [hcid] at hlog; simp at hlog
      | some cid =>
        rw [hcid, hnone] at hlog
        simp only [Option.bind_eq_bind, Option.some_bind] at hlog
        cases Option.some.inj hlog
        exact ⟨rfl, rfl⟩

/-- The property C8 claims of one raw entry: every accepted normalization
with a repetition has `count ≥ 2` and `first_seen ≤ timestamp`. -/
def repetitionBoundsHold (raw : ApiLog) : Prop :=
  ∀ log, logTryFrom raw = some log →
    ∀ rep, log.repetition = some rep → 2 ≤ rep.count ∧ dtLe rep.datetime log.datetime

theorem c8_cex :
    ¬ repetitionBoundsHold
      ⟨"02.01.23", "01:01:01", "X [1 Meldungen seit 03.01.23 01:01:01]", "1", "1", ""⟩ := by
  intro h
  have hc := h ⟨⟨2023, 1, 2, 1, 1, 1⟩, "X", 1, 1, some ⟨⟨2023, 1, 3, 1, 1, 1⟩, 1⟩⟩
    (by decide) ⟨⟨2023, 1, 3, 1, 1, 1⟩, 1⟩ rfl
  exact absurd hc (by decide)

theorem parseUnsignedTo_le {bound : Nat} {ds : List Char} {n : Nat}
    (h : parseUnsignedTo bound ds = some n) : n ≤ bound := by
  rw [parseUnsignedTo] at h
  by_cases h1 : ds = []
  · rw [if_pos h1] at h
    simp at h
  · rw [if_neg h1] at h
    by_cases h2 : ds.all Char.isDigit
    · rw [if_pos h2] at h
      by_cases h3 : natOfDigits ds ≤ bound
      · rw [if_pos h3] at h
        cases Option.some.inj h
        exact h3
      · rw [if_neg h3] at h
        simp at h
    · rw [if_neg h2] at h
      simp at h

theorem parseI64Digits_bounds {ds : List Char} {c : Int}
    (h : parseI64Digits ds = some c) : 0 ≤ c ∧ c ≤ 9223372036854775807 := by
  rw [parseI64Digits] at h
  cases hp : parseUnsignedTo 9223372036854775807 ds with
  | none => rw [hp] at h; simp at h
  | some n =>
    rw [hp] at h
    have h' : some ((n : Int)) = some c := h
    cases Option.some.inj h'
    have := parseUnsignedTo_le hp
    constructor
    · exact Int.natCast_nonneg n
    · exact_mod_cast this

/-- C8 (amended): the normalizer does not validate the repetition contents:
the entry with its own timestamp 2023-01-02 01:01:01 and annotation
`"[1 Meldungen seit 03.01.23 01:01:01]"` is accepted although its count is
below 2 and its first-seen time is after the record's timestamp.  The only
bound the code imposes on an accepted repetition count is the `i64` range
of `str::parse` (so `0 ≤ count ≤ i64::MAX`); `first_seen` is parsed by the
ordinary date rules with no comparison against the record's timestamp. -/
theorem normalizer_repetition_unvalidated :
    logTryFrom ⟨"02.01.23", "01:01:01",
        "X [1 Meldungen seit 03.01.23 01:01:01]", "1", "1", ""⟩ =
      some ⟨⟨2023, 1, 2, 1, 1, 1⟩, "X", 1, 1, some ⟨⟨2023, 1, 3, 1, 1, 1⟩, 1⟩⟩
    ∧ ¬ (2 ≤ (1 : Int))
    ∧ ¬ dtLe ⟨2023, 1, 3, 1, 1, 1⟩ ⟨2023, 1, 2, 1, 1, 1⟩
    ∧ ∀ raw log rep, logTryFrom raw = some log → log.repetition = some rep →
        0 ≤ rep.count ∧ rep.count ≤ 9223372036854775807 := by
  refine ⟨by decide, by decide, by decide, ?_⟩
  intro raw log rep hlog hrep
  rw [logTryFrom] at hlog
  cases hdt : parse_datetime raw.date.toList raw.time.toList with
  | none => rw [hdt] at hlog; simp at hlog
  | some dt =>
    rw [hdt] at hlog
    cases hmid : parseI64 raw.messageId with
    | none => rw [hmid] at hlog; simp at hlog
    | some mid =>
      rw [hmid] at hlog
      cases hcid : parseI64 raw.categoryId with
      | none => rw [hcid] at hlog; simp at hlog
      | some cid =>
        rw [hcid] at hlog
        simp only [Option.bind_eq_bind, Option.some_bind] at hlog
        cases hfm : findRepetitionMatch raw.message.toList with
        | none =>
          rw [hfm] at hlog
          cases Option.some.inj hlog
          simp at hrep
        | some parts =>
          rw [hfm] at hlog
          rcases parts with ⟨kept, count, dateStr, timeStr⟩
          simp only [Option.bind_eq_bind, Option.some_bind] at hlog
          cases hrdt : parse_datetime dateStr timeStr with
          | none => rw [hrdt] at hlog; simp at hlog
          | some rdt =>
            rw [hrdt] at hlog
            cases hrc : parseI64Digits count with
            | none => rw [hrc] at hlog; simp at hlog
            | some rc =>
              rw [hrc] at hlog
              simp only [Option.bind_eq_bind, Option.some_bind] at hlog
              cases Option.some.inj hlog
              rw [Option.some.injEq] at hrep
              cases hrep
              exact parseI64Digits_bounds hrc

end FritzApp

namespace FritzApp

/-- Batch sortedness check of the Merge Engine (Invariant I1, comparison by
`timestamp` only, section 4.3). -/
def logsSorted : List Log → Bool
  | [] => true
  | [_] => true
  | a :: b :: t => decide (dtLe a.datetime b.datetime) && logsSorted (b :: t)

/-- Failure modes of the Merge Engine (section 4.2 / section 7: precondition
violations, surfaced with no mutation). -/
inductive MergeError where
  | unsortedBatch
  | emptyBatch
  | overlapNotFound
  deriving DecidableEq

/-- Modelled from the spec: the Store Adapter's `replace` primitive
(section 6) — update the row matching the old record's identity key to the
new record's full field set. -/
def replaceByKey (store : List Log) (k : NaiveDT × Int × Int) (pivot : Log) : List Log :=
  store.map fun r => if identityKey r = k then pivot else r

/-- Index of the first record with the given identity key (the Merge
Engine's "locate the single record in `batch` whose identity key equals
`latest`'s"). -/
def findKeyIdx (k : NaiveDT × Int × Int) : List Log → Option Nat
  | [] => none
  | l :: ls => if identityKey l = k then some 0 else (findKeyIdx k ls).map (· + 1)

/-- Oldest earliest-timestamp of a non-empty batch, as a key. -/
def minEarliestKey (b : Log) (bs : List Log) : Nat :=
  (bs.map fun l => dtKey (earliestDatetime l)).foldl min (dtKey (earliestDatetime b))

/-- Modelled from the spec: the Merge Engine of section 4.2 — the
`Database::append_new_logs` implementation of fritz-app is not among the
repository's source files (only its tests and callers are), so the merge is
modelled from the specification's algorithm.  The store is the list of
persisted records in insertion order; the result is the store after the
issued operations together with the incorporated slice, or a precondition
error (`UnsortedBatch`, the non-emptiness precondition, `OverlapNotFound`)
with no mutation. -/
def mergeSpec (store : List Log) : List Log → Except MergeError (List Log × List Log)
  | [] => .error .emptyBatch
  | b :: bs =>
    if logsSorted (b :: bs) then
      match store.getLast? with
      | none => .ok (store ++ b :: bs, b :: bs)
      | some latest =>
        if dtKey latest.datetime < minEarliestKey b bs then
          .ok (store ++ b :: bs, b :: bs)
        else if dtKey ((b :: bs).getLastD b).datetime < dtKey latest.datetime then
          .ok (store, [])
        else
          match findKeyIdx (identityKey latest) (b :: bs) with
          | none => .error .overlapNotFound
          | some i =>
            let pivot := (b :: bs).getD i latest
            if (pivot.datetime, pivot.repetition) = (latest.datetime, latest.repetition) then
              .ok (store ++ (b :: bs).drop (i + 1), (b :: bs).drop (i + 1))
            else
              .ok (replaceByKey store (identityKey latest) pivot ++ (b :: bs).drop (i + 1),
                pivot :: (b :: bs).drop (i + 1))
    else .error .unsortedBatch

/-- Modelled from the spec: reading the persisted store back most recent
first (`select_latest_logs`, descending timestamp). -/
def readLatestFirst (store : List Log) : List Log := store.reverse

/-- Number of store rows carrying a given identity key. -/
def countKey (store : List Log) (k : NaiveDT × Int × Int) : Nat :=
  store.countP fun r => decide (identityKey r = k)

theorem foldl_min_le_init : ∀ (l : List Nat) (a : Nat), l.foldl min a ≤ a
  | [], a => le_refl a
  | x :: l, a => le_trans (foldl_min_le_init l (min a x)) (min_le_left a x)

theorem getLastD_self_mem : ∀ (l : List Log) (d : Log), l.getLastD d ∈ d :: l
  | [], d => by simp
  | x :: l, d => by
    rw [List.getLastD_cons]
    exact List.mem_cons_of_mem d (getLastD_self_mem l x)

theorem countKey_replaceByKey (S : List Log) (k : NaiveDT × Int × Int) (pivot : Log)
    (hk : identityKey pivot = k) :
    countKey (replaceByKey S k pivot) k = countKey S k := by
  rw [countKey, countKey, replaceByKey, List.countP_map]
  refine List.countP_congr ?_
  intro r _
  show decide (identityKey (if identityKey r = k then pivot else r) = k) = true ↔
    decide (identityKey r = k) = true
  by_cases hr : identityKey r = k
  · rw [if_pos hr]
    simp [hr, hk]
  · rw [if_neg hr]

/-- C1: when the store's most recent record is `C` and the batch starts
with a record `C'` carrying `C`'s identity key but a different
`(timestamp, repetition)`, followed by strictly newer records with other
keys, the spec-modelled merge replaces `C` by `C'` in place — the store
keeps a single row with that identity key — appends every record after
`C'` in order, and returns `C'` followed by those records as the
incorporated slice. -/
theorem merge_replaces_pivot_and_appends
    (S : List Log) (C C' : Log) (rest : List Log)
    (hlast : S.getLast? = some C)
    (hwf : dtLe (earliestDatetime C) C.datetime)
    (hkey : identityKey C' = identityKey C)
    (hchanged : (C'.datetime, C'.repetition) ≠ (C.datetime, C.repetition))
    (hts : dtLe C.datetime C'.datetime)
    (hrest : ∀ r ∈ rest, dtLt C'.datetime r.datetime)
    (hrestSorted : logsSorted rest = true)
    (hrestKeys : ∀ r ∈ rest, identityKey r ≠ identityKey C)
    (huniq : countKey S (identityKey C) = 1) :
    mergeSpec S (C' :: rest) =
      .ok (replaceByKey S (identityKey C) C' ++ rest, C' :: rest)
    ∧ countKey (replaceByKey S (identityKey C) C' ++ rest) (identityKey C) = 1 := by
  have hsorted : logsSorted (C' :: rest) = true := by
    cases rest with
    | nil => rfl
    | cons r rs =>
      rw [logsSorted, Bool.and_eq_true, decide_eq_true_iff]
      exact ⟨Nat.le_of_lt (hrest r (by simp)), hrestSorted⟩
  have hearliest : earliestDatetime C' = earliestDatetime C := by
    have := congrArg Prod.fst hkey
    simpa [identityKey] using this
  have hcase2 : ¬ dtKey C.datetime < minEarliestKey C' rest := by
    have h1 : minEarliestKey C' rest ≤ dtKey (earliestDatetime C') :=
      foldl_min_le_init _ _
    rw [hearliest] at h1
    have h2 : dtKey (earliestDatetime C) ≤ dtKey C.datetime := hwf
    omega
  have hcase3 : ¬ dtKey ((C' :: rest).getLastD C').datetime < dtKey C.datetime := by
    have hLD : (C' :: rest).getLastD C' = rest.getLastD C' := List.getLastD_cons C' C' rest
    rw [hLD]
    rcases List.mem_cons.mp (getLastD_self_mem rest C') with h | h
    · rw [h]
      have h2 : dtKey C.datetime ≤ dtKey C'.datetime := hts
      omega
    · have hlt : dtKey C'.datetime < dtKey (rest.getLastD C').datetime := hrest _ h
      have h2 : dtKey C.datetime ≤ dtKey C'.datetime := hts
      omega
  have hfind : findKeyIdx (identityKey C) (C' :: rest) = some 0 := by
    rw [findKeyIdx, if_pos hkey]
  have hmain : mergeSpec S (C' :: rest) =
      .ok (replaceByKey S (identityKey C) C' ++ rest, C' :: rest) := by
    rw [mergeSpec, hsorted]
    simp only [if_true, hlast]
    rw [if_neg hcase2, if_neg hcase3]
    simp only [hfind]
    simp only [List.getD_cons_zero]
    rw [if_neg hchanged]
    simp
  refine ⟨hmain, ?_⟩
  have hrest0 : rest.countP (fun r => decide (identityKey r = identityKey C)) = 0 :=
    List.countP_eq_zero.mpr fun r hr => by simpa using hrestKeys r hr
  have hrepl : (replaceByKey S (identityKey C) C').countP
      (fun r => decide (identityKey r = identityKey C)) = 1 := by
    have hr := countKey_replaceByKey S (identityKey C) C' hkey
    rw [huniq] at hr
    exact hr
  rw [countKey, List.countP_append, hrepl, hrest0]

end FritzApp

namespace FritzApp

/-- First-seen time of the repeated entry in the C1 scenario. -/
def dtFirstSeen : NaiveDT := ⟨2023, 1, 1, 1, 1, 1⟩

/-- Stored record `C(t=3)` of the C1 scenario (repetition count 4). -/
def logC : Log := ⟨⟨2023, 1, 1, 1, 1, 3⟩, "message", 1, 1, some ⟨dtFirstSeen, 4⟩⟩

/-- Re-fetched record `C'` — same identity key, repetition advanced to 5. -/
def logC' : Log := ⟨⟨2023, 1, 1, 1, 1, 3⟩, "message", 1, 1, some ⟨dtFirstSeen, 5⟩⟩

/-- Brand-new record `D(t=4)` following the pivot. -/
def logD : Log := ⟨⟨2023, 1, 1, 1, 1, 4⟩, "message", 2, 2, none⟩

instance {e a : Type} [DecidableEq e] [DecidableEq a] : DecidableEq (Except e a)
  | .ok x, .ok y =>
    if h : x = y then isTrue (by rw [h]) else isFalse (by intro hc; cases hc; exact h rfl)
  | .error x, .error y =>
    if h : x = y then isTrue (by rw [h]) else isFalse (by intro hc; cases hc; exact h rfl)
  | .ok _, .error _ => isFalse (by intro hc; cases hc)
  | .error _, .ok _ => isFalse (by intro hc; cases hc)

theorem c1_wit :
    mergeSpec [logC] [logC', logD] = .ok ([logC', logD], [logC', logD])
    ∧ readLatestFirst [logC', logD] = [logD, logC']
    ∧ countKey [logC', logD] (identityKey logC) = 1 := by
  have h := merge_replaces_pivot_and_appends [logC] logC logC' [logD]
    (by decide) (by decide) (by decide) (by decide) (by decide) (by decide)
    (by decide) (by decide) (by decide)
  refine ⟨h.1.trans (by decide), by decide, ?_⟩
  have h2 := h.2
  rw [show replaceByKey [logC] (identityKey logC) logC' ++ [logD] = [logC', logD] from by decide] at h2
  exact h2

end FritzApp

namespace Login

/-- Rust's `str::split('$')` on the character list: empty pieces are kept,
the empty string yields one empty piece. -/
def splitDollar : List Char → List (List Char)
  | [] => [[]]
  | c :: rest =>
    if c = '$' then [] :: splitDollar rest
    else
      match splitDollar rest with
      | [] => [[c]]
      | p :: ps => (c :: p) :: ps

/-- Value of one hexadecimal digit, upper or lower case. -/
def hexDigit? (c : Char) : Option Nat :=
  if '0' ≤ c ∧ c ≤ '9' then some (c.toNat - 48)
  else if 'a' ≤ c ∧ c ≤ 'f' then some (c.toNat - 87)
  else if 'A' ≤ c ∧ c ≤ 'F' then some (c.toNat - 55)
  else none

/-- Decode hex digit pairs into bytes; odd length or a bad digit fails. -/
def hexPairs : List Char → Option (List Nat)
  | [] => some []
  | [_] => none
  | hi :: lo :: rest => do
    let h ← hexDigit? hi
    let l ← hexDigit? lo
    let r ← hexPairs rest
    some ((h * 16 + l) :: r)

/-- `hex::decode_to_slice` into a `[u8; 16]` buffer: the field decodes and
fills the buffer exactly, so it must be 32 hex characters. -/
def decodeHex16 (cs : List Char) : Option (List Nat) := do
  let bytes ← hexPairs cs
  if bytes.length = 16 then some bytes else none

/-- `<u32 as FromStr>::from_str`: an optional leading `+`, then digits,
value within the `u32` range. -/
def parseU32 : List Char → Option Nat
  | '+' :: ds => FritzApp.parseUnsignedTo 4294967295 ds
  | ds => FritzApp.parseUnsignedTo 4294967295 ds

/-- One PBKDF2 round description of `src/login/challenge.rs`. -/
structure Pbkdf2Params where
  iterations : Nat
  salt : List Nat
  deriving DecidableEq

/-- The parsed challenge of `src/login/challenge.rs`. -/
structure Challenge where
  statick : Pbkdf2Params
  dynamic : Pbkdf2Params
  deriving DecidableEq

/-- `ChallengeParseError` of `src/login/challenge.rs`. -/
inductive ChallengeParseError where
  | Format
  | Version
  | Salt
  | Iterations
  deriving DecidableEq

/-- Whether an `Except` result is a success. -/
def isOk {e a : Type} : Except e a → Bool
  | .ok _ => true
  | .error _ => false

/-- `FromStr for Challenge` of `src/login/challenge.rs`: five `split('$')`
pieces (further pieces are never requested), version `"2"`, two 16-byte
hex salts, two `u32` iteration counts — in the evaluation order of the
source (salts decoded before the iteration fields are parsed). -/
def challenge_from_str (s : String) : Except ChallengeParseError Challenge :=
  match splitDollar s.toList with
  | version :: staticIter :: staticSalt :: dynamicIter :: dynamicSalt :: _ =>
    if version ≠ ['2'] then .error .Version
    else
      match decodeHex16 staticSalt with
      | none => .error .Salt
      | some staticBuf =>
        match decodeHex16 dynamicSalt with
        | none => .error .Salt
        | some dynamicBuf =>
          match parseU32 staticIter with
          | none => .error .Iterations
          | some si =>
            match parseU32 dynamicIter with
            | none => .error .Iterations
            | some di => .ok ⟨⟨si, staticBuf⟩, ⟨di, dynamicBuf⟩⟩
  | _ => .error .Format

/-- The acceptance shape both parsers recognize: at least five
`'$'`-separated fields, the first five being `2`, a `u32`, 32 hex
characters, a `u32`, 32 hex characters. -/
def challengeShapeOk (s : String) : Bool :=
  match splitDollar s.toList with
  | v :: r1 :: s1 :: r2 :: s2 :: _ =>
    decide (v = ['2']) && (parseU32 r1).isSome && (decodeHex16 s1).isSome &&
      (parseU32 r2).isSome && (decodeHex16 s2).isSome
  | _ => false

end Login

namespace FritzApi

/-- The parsed challenge of `fritz-api/src/api/challenge.rs`. -/
structure Challenge where
  salt_1 : List Nat
  rounds_1 : Nat
  salt_2 : List Nat
  rounds_2 : Nat
  deriving DecidableEq

/-- `FromStr for Challenge` of `fritz-api/src/api/challenge.rs`: same five
pieces, rounds parsed before the salts are decoded, `anyhow` errors
embedded as strings. -/
def challenge_from_str (s : String) : Except String Challenge :=
  match Login.splitDollar s.toList with
  | version :: rounds1 :: salt1 :: rounds2 :: salt2 :: _ =>
    if version ≠ ['2'] then .error "invalid version"
    else
      match Login.parseU32 rounds1 with
      | none => .error "parse rounds_1"
      | some r1 =>
        match Login.parseU32 rounds2 with
        | none => .error "parse rounds_2"
        | some r2 =>
          match Login.decodeHex16 salt1 with
          | none => .error "salt_1 decode"
          | some s1 =>
            match Login.decodeHex16 salt2 with
            | none => .error "salt_2 decode"
            | some s2 => .ok ⟨s1, r1, s2, r2⟩
  | _ => .error "get splits"

end FritzApi

namespace Login

/-- C9 (amended): both challenge parsers succeed exactly on the strings
whose first five `'$'`-separated fields are the version `"2"`, a `u32`
rounds field, a 32-hex-character salt, another `u32` rounds field and
another 32-hex-character salt.  Only the first five `split('$')` pieces
are ever requested, so extra fields beyond the fifth are ignored rather
than rejected; fewer than five fields, or any version other than `"2"`,
is an error. -/
theorem challenge_accept_shape (s : String) :
    isOk (challenge_from_str s) = challengeShapeOk s
    ∧ isOk (FritzApi.challenge_from_str s) = challengeShapeOk s := by
  constructor
  · rcases h : splitDollar s.toList with _ | ⟨v, _ | ⟨r1, _ | ⟨s1, _ | ⟨r2, _ | ⟨s2, rest⟩⟩⟩⟩⟩ <;>
      simp only [challenge_from_str, challengeShapeOk, h, isOk]
    by_cases hv : v = ['2']
    · subst hv
      cases hr1 : parseU32 r1 <;> cases hs1 : decodeHex16 s1 <;>
        cases hr2 : parseU32 r2 <;> cases hs2 : decodeHex16 s2 <;>
          simp [isOk, hr1, hs1, hr2, hs2]
    · simp [isOk, hv]
  · rcases h : splitDollar s.toList with _ | ⟨v, _ | ⟨r1, _ | ⟨s1, _ | ⟨r2, _ | ⟨s2, rest⟩⟩⟩⟩⟩ <;>
      simp only [FritzApi.challenge_from_str, challengeShapeOk, h, isOk]
    by_cases hv : v = ['2']
    · subst hv
      cases hr1 : parseU32 r1 <;> cases hs1 : decodeHex16 s1 <;>
        cases hr2 : parseU32 r2 <;> cases hs2 : decodeHex16 s2 <;>
          simp [isOk, hr1, hs1, hr2, hs2]
    · simp [isOk, hv]

/-- A challenge string with six `'$'`-separated fields whose first five
are well-formed. -/
def sixFieldChallenge : String :=
  "2$1$00000000000000000000000000000000$1$00000000000000000000000000000000$x"

theorem c9_cex :
    isOk (challenge_from_str sixFieldChallenge) = true
    ∧ isOk (FritzApi.challenge_from_str sixFieldChallenge) = true
    ∧ (splitDollar sixFieldChallenge.toList).length = 6 := by
  refine ⟨by decide, by decide, by decide⟩

end Login
